import Mathlib

/-!
Verification of the agent-first-data Rust core (`src/rust/src/lib.rs`):
a shallow embedding of the `serde_json::Value` tree model and of the
library's three renderers (`OutputFormat::format` with JSON / YAML / plain
backends), of the suffix-driven plain formatter `format_plain_field`, and
of the secret redactor `redact_secrets`, together with theorems settling
the frozen specification claims.

Machine integers are modelled as `Nat`/`Int` with explicit wrapping where
the Rust code can overflow; `f64` values are modelled as exact fractions
together with their display text (see `JNum.float`).
-/

set_option maxRecDepth 16384

/-! ## Characters, digits and decimal rendering -/

/-- Decimal digit to character, used by the decimal renderers. -/
def digitCh (n : Nat) : Char :=
  Char.ofNat (48 + n)

/-- Write `n` in base ten; `fuel` bounds the recursion (any `fuel > n` is enough). -/
def natStrAux : Nat → Nat → List Char
  | 0, _ => []
  | fuel + 1, n => if n < 10 then [digitCh n] else natStrAux fuel (n / 10) ++ [digitCh (n % 10)]

/-- Decimal rendering of a natural number (Rust `u64` `Display`). -/
def natStr (n : Nat) : String := ⟨natStrAux (n + 1) n⟩

/-- Decimal rendering of an integer (Rust `i64` `Display`). -/
def intStr (i : Int) : String := if i < 0 then "-" ++ natStr i.natAbs else natStr i.toNat

/-- Left-pad the decimal rendering of `n` with zeros to `w` digits (Rust `{:02}` etc.). -/
def padZeros (w : Nat) (n : Nat) : String :=
  ⟨List.replicate (w - (natStr n).data.length) '0' ++ (natStr n).data⟩

/-- ASCII lower-casing of one character (Rust `u8::to_ascii_lowercase`). -/
def lowerCh (c : Char) : Char :=
  if 'A' ≤ c ∧ c ≤ 'Z' then Char.ofNat (c.toNat + 32) else c

/-- ASCII lower-casing (Rust `str::to_ascii_lowercase`). -/
def to_ascii_lowercase (s : String) : String := ⟨s.data.map lowerCh⟩

/-- ASCII upper-casing of one character. -/
def upperCh (c : Char) : Char :=
  if 'a' ≤ c ∧ c ≤ 'z' then Char.ofNat (c.toNat - 32) else c

/-- Upper-casing of a string, modelled for ASCII letters only.  The library
applies Rust `str::to_uppercase` to extracted currency codes; for non-ASCII
codes (reachable through a key such as `fare_é_cents`) the real function also
maps non-ASCII lowercase letters, which this model passes through unchanged —
no theorem below evaluates a non-ASCII currency code. -/
def str_to_uppercase (s : String) : String := ⟨s.data.map upperCh⟩

/-- Suffix test on strings (Rust `str::ends_with` with a literal pattern). -/
def ends_with (s suffixStr : String) : Bool := suffixStr.data.isSuffixOf s.data

/-! ## The `serde_json` value model

`serde_json::Number` stores either a `u64` (`posInt`), a strictly negative
`i64` (`negInt m` denotes the value `-(m+1)`), or a finite `f64`.  An `f64`
is modelled by its exact rational value `num / den` (every binary float is
such a fraction) together with its display text (the text `serde_json`'s
Ryu-based `Display` would print); value and text are carried separately
because Lean has no primitive binary floats. -/

inductive JNum where
  | posInt (n : Nat)
  | negInt (m : Nat)
  | float (text : String) (num : Int) (den : Nat)

/-- Display form of a number (`serde_json::Number`'s `Display`). -/
def JNum.display : JNum → String
  | .posInt n => natStr n
  | .negInt m => "-" ++ natStr (m + 1)
  | .float text _ _ => text

/-- The `serde_json::Value` tree.  Objects are the map's iteration sequence as an
association list; `serde_json`'s map keeps keys unique. -/
inductive Json where
  | null
  | boolJ (b : Bool)
  | numJ (n : JNum)
  | strJ (s : String)
  | arr (elems : List Json)
  | obj (fields : List (String × Json))

/-- Rust `Value::as_u64`: `Some` exactly for the `u64` arm. -/
def Json.as_u64 : Json → Option Nat
  | .numJ (.posInt n) => some n
  | _ => none

/-- Rust `Value::as_i64`: a `u64` that fits in `i64`, or a negative `i64`. -/
def Json.as_i64 : Json → Option Int
  | .numJ (.posInt n) => if n ≤ 2 ^ 63 - 1 then some (n : Int) else none
  | .numJ (.negInt m) => some (-(m + 1 : Int))
  | _ => none

/-- Rust `Value::is_number`. -/
def Json.is_number : Json → Bool
  | .numJ _ => true
  | _ => false

/-- Rust `Value::is_object`. -/
def Json.is_object : Json → Bool
  | .obj _ => true
  | _ => false

/-- Rust `Value::is_array`. -/
def Json.is_array : Json → Bool
  | .arr _ => true
  | _ => false

/-- Rust `Value::is_string`. -/
def Json.is_string : Json → Bool
  | .strJ _ => true
  | _ => false

/-! ## Node weights (termination measure for the renderers) -/

mutual
/-- Total node count of a tree; the measure for the renderers' recursion. -/
def Json.weight : Json → Nat
  | .arr es => 1 + Json.weightArr es
  | .obj ms => 1 + Json.weightObj ms
  | _ => 1
/-- Summed weight of array elements. -/
def Json.weightArr : List Json → Nat
  | [] => 0
  | e :: es => Json.weight e + Json.weightArr es
/-- Summed weight of object field values. -/
def Json.weightObj : List (String × Json) → Nat
  | [] => 0
  | (_, v) :: ms => Json.weight v + Json.weightObj ms
end

theorem Json.weight_pos : ∀ j : Json, 1 ≤ j.weight
  | .null => le_refl _
  | .boolJ _ => le_refl _
  | .numJ _ => le_refl _
  | .strJ _ => le_refl _
  | .arr _ => Nat.le_add_right _ _
  | .obj _ => Nat.le_add_right _ _

theorem Json.weightObj_perm {l1 l2 : List (String × Json)} (h : l1.Perm l2) :
    Json.weightObj l1 = Json.weightObj l2 := by
  induction h with
  | nil => rfl
  | cons x h ih =>
      obtain ⟨a, b⟩ := x
      simp only [Json.weightObj]
      omega
  | swap x y l =>
      obtain ⟨a, b⟩ := x
      obtain ⟨c, d⟩ := y
      simp only [Json.weightObj]
      omega
  | trans h1 h2 ih1 ih2 => omega

/-- Structural induction over the nested `Json` tree with membership hypotheses
for array elements and object field values. -/
theorem Json.myInduction (P : Json → Prop)
    (h0 : P .null) (h1 : ∀ b, P (.boolJ b)) (h2 : ∀ n, P (.numJ n)) (h3 : ∀ s, P (.strJ s))
    (harr : ∀ es, (∀ e ∈ es, P e) → P (.arr es))
    (hobj : ∀ ms, (∀ kv ∈ ms, P kv.2) → P (.obj ms)) : ∀ j, P j
  | .null => h0
  | .boolJ b => h1 b
  | .numJ n => h2 n
  | .strJ s => h3 s
  | .arr es => harr es (fun e he =>
      have : sizeOf e < 1 + sizeOf es := by
        have := List.sizeOf_lt_of_mem he
        omega
      Json.myInduction P h0 h1 h2 h3 harr hobj e)
  | .obj ms => hobj ms (fun kv hkv =>
      have : sizeOf kv.2 < 1 + sizeOf ms := by
        have hm := List.sizeOf_lt_of_mem hkv
        have hp : sizeOf kv.2 < sizeOf kv := by
          obtain ⟨a, b⟩ := kv
          simp only [Prod.mk.sizeOf_spec]
          omega
        omega
      Json.myInduction P h0 h1 h2 h3 harr hobj kv.2)
termination_by j => sizeOf j

/-! ## Compact serialization (`serde_json::to_string`) -/

/-- Lowercase hexadecimal digit (serde_json's `\u00XX` escapes use lowercase hex). -/
def hexCh (n : Nat) : Char :=
  if n < 10 then Char.ofNat (48 + n) else Char.ofNat (97 + (n - 10))

/-- JSON string escaping of one character, as `serde_json`'s serializer performs it:
quote and backslash get a two-character escape, the five named control characters get
their short escapes, the remaining control characters become `\u00XX`, and everything
else passes through. -/
def escapeChar (c : Char) : List Char :=
  if c = '"' then ['\\', '"']
  else if c = '\\' then ['\\', '\\']
  else if c.toNat = 8 then ['\\', 'b']
  else if c.toNat = 9 then ['\\', 't']
  else if c.toNat = 10 then ['\\', 'n']
  else if c.toNat = 12 then ['\\', 'f']
  else if c.toNat = 13 then ['\\', 'r']
  else if c.toNat < 32 then ['\\', 'u', '0', '0', hexCh (c.toNat / 16), hexCh (c.toNat % 16)]
  else [c]

/-- JSON string escaping (`serde_json`'s serializer, contents between the quotes). -/
def escapeStr (s : String) : String := ⟨s.data.flatMap escapeChar⟩

mutual
/-- Compact one-line serialization, `serde_json::to_string`.  On `Value` input the
serializer cannot fail, so the library's `unwrap_or_default` never takes its
default branch and the function is total. -/
def serde_to_string : Json → String
  | .null => "null"
  | .boolJ b => if b then "true" else "false"
  | .numJ n => n.display
  | .strJ s => "\"" ++ escapeStr s ++ "\""
  | .arr es => "[" ++ serdeArr es ++ "]"
  | .obj ms => "\x7b" ++ serdeObj ms ++ "\x7d"
/-- Comma-separated serialization of array elements. -/
def serdeArr : List Json → String
  | [] => ""
  | [e] => serde_to_string e
  | e :: es => serde_to_string e ++ "," ++ serdeArr es
/-- Comma-separated serialization of object entries. -/
def serdeObj : List (String × Json) → String
  | [] => ""
  | [(k, v)] => "\"" ++ escapeStr k ++ "\":" ++ serde_to_string v
  | (k, v) :: ms => "\"" ++ escapeStr k ++ "\":" ++ serde_to_string v ++ "," ++ serdeObj ms
end

/-! ## UTF-16 ordering and per-object sorting (`jcs_sorted`) -/

/-- UTF-16 code units of one scalar value (Rust `char::encode_utf16`): BMP scalars
are one unit, supplementary scalars become a surrogate pair. -/
def utf16Char (c : Char) : List Nat :=
  if c.toNat < 0x10000 then [c.toNat]
  else [0xD800 + (c.toNat - 0x10000) / 0x400, 0xDC00 + (c.toNat - 0x10000) % 0x400]

/-- The UTF-16 code-unit sequence of a string (Rust `str::encode_utf16`). -/
def utf16 (s : String) : List Nat := s.data.flatMap utf16Char

/-- Lexicographic "not greater" on unit sequences: `a.cmp(b) != Greater` for the
iterator comparison the sorter uses. -/
def unitsLe : List Nat → List Nat → Bool
  | [], _ => true
  | _ :: _, [] => false
  | a :: as, b :: bs => if a < b then true else if b < a then false else unitsLe as bs

theorem unitsLe_refl (a : List Nat) : unitsLe a a = true := by
  induction a with
  | nil => rfl
  | cons x xs ih => simp [unitsLe, ih]

theorem unitsLe_total (a b : List Nat) : unitsLe a b = true ∨ unitsLe b a = true := by
  induction a generalizing b with
  | nil => left; rfl
  | cons x xs ih =>
    cases b with
    | nil => right; rfl
    | cons y ys =>
      by_cases hxy : x < y
      · left; simp [unitsLe, hxy]
      · by_cases hyx : y < x
        · right; simp [unitsLe, hyx, hxy]
        · have hxy2 : x = y := by omega
          subst hxy2
          rcases ih ys with h | h
          · left; simpa [unitsLe, hxy] using h
          · right; simpa [unitsLe, hxy] using h

theorem unitsLe_cons_iff {x y : Nat} {xs ys : List Nat} :
    unitsLe (x :: xs) (y :: ys) = true ↔ x < y ∨ (x = y ∧ unitsLe xs ys = true) := by
  simp only [unitsLe]
  by_cases hxy : x < y
  · simp [hxy]
  · by_cases hyx : y < x
    · simp [hxy, hyx]
      omega
    · have hxyeq : x = y := by omega
      simp [hxy, hyx, hxyeq]

theorem unitsLe_trans {a b c : List Nat} (h1 : unitsLe a b = true) (h2 : unitsLe b c = true) :
    unitsLe a c = true := by
  induction a generalizing b c with
  | nil => rfl
  | cons x xs ih =>
    cases b with
    | nil => simp [unitsLe] at h1
    | cons y ys =>
      cases c with
      | nil => simp [unitsLe] at h2
      | cons z zs =>
        rw [unitsLe_cons_iff] at h1 h2 ⊢
        rcases h1 with h1 | ⟨h1e, h1r⟩
        · rcases h2 with h2 | ⟨h2e, h2r⟩
          · left; omega
          · left; omega
        · rcases h2 with h2 | ⟨h2e, h2r⟩
          · left; omega
          · right
            exact ⟨by omega, ih h1r h2r⟩

theorem unitsLe_antisymm {a b : List Nat} (h1 : unitsLe a b = true) (h2 : unitsLe b a = true) :
    a = b := by
  induction a generalizing b with
  | nil =>
    cases b with
    | nil => rfl
    | cons y ys => simp [unitsLe] at h2
  | cons x xs ih =>
    cases b with
    | nil => simp [unitsLe] at h1
    | cons y ys =>
      rw [unitsLe_cons_iff] at h1 h2
      rcases h1 with h1 | ⟨h1e, h1r⟩
      · rcases h2 with h2 | ⟨h2e, h2r⟩
        · omega
        · omega
      · rcases h2 with h2 | ⟨h2e, h2r⟩
        · omega
        · rw [h1e, ih h1r h2r]

/-- The comparison `jcs_sorted` sorts by: keys as UTF-16 code-unit sequences (JCS,
RFC 8785), "less or equal" form of the `Ordering`-valued comparator. -/
def keyLe (a b : String) : Bool := unitsLe (utf16 a) (utf16 b)

/-- Insert one field into a run sorted by `le` on the keys, before the first
strictly larger entry; the building block of a stable insertion sort with the
same extensional behaviour as Rust's stable `sort_by`. -/
def insertFieldBy (le : String → String → Bool) (x : String × Json) :
    List (String × Json) → List (String × Json)
  | [] => [x]
  | y :: l => if le x.1 y.1 then x :: y :: l else y :: insertFieldBy le x l

/-- Stable sort of an object's fields by `le` on the keys. -/
def sortFieldsBy (le : String → String → Bool) (ms : List (String × Json)) :
    List (String × Json) :=
  ms.foldr (insertFieldBy le) []

/-- Sort map entries by UTF-16 code unit order (JCS, RFC 8785); the library's
`jcs_sorted`, applied by both the YAML and the plain renderer to every object. -/
def jcs_sorted (ms : List (String × Json)) : List (String × Json) := sortFieldsBy keyLe ms

theorem insertFieldBy_perm (le : String → String → Bool) (x : String × Json)
    (l : List (String × Json)) : (insertFieldBy le x l).Perm (x :: l) := by
  induction l with
  | nil => exact List.Perm.refl _
  | cons y t ih =>
    by_cases h : le x.1 y.1 = true
    · simp [insertFieldBy, h]
    · simp only [insertFieldBy, h, Bool.false_eq_true, if_false]
      exact ((ih.cons y).trans (List.Perm.swap x y t))

theorem sortFieldsBy_perm (le : String → String → Bool) (ms : List (String × Json)) :
    (sortFieldsBy le ms).Perm ms := by
  induction ms with
  | nil => exact List.Perm.refl _
  | cons x t ih =>
    have hstep : sortFieldsBy le (x :: t) = insertFieldBy le x (sortFieldsBy le t) := rfl
    rw [hstep]
    exact (insertFieldBy_perm le x (sortFieldsBy le t)).trans (ih.cons x)

/-- Sortedness of a field list under `le` on the keys. -/
def FieldSortedBy (le : String → String → Bool) (l : List (String × Json)) : Prop :=
  l.Pairwise (fun a b => le a.1 b.1 = true)

theorem insertFieldBy_sorted (le : String → String → Bool)
    (htot : ∀ a b, le a b = true ∨ le b a = true)
    (htrans : ∀ a b c, le a b = true → le b c = true → le a c = true)
    (x : String × Json) (l : List (String × Json)) (h : FieldSortedBy le l) :
    FieldSortedBy le (insertFieldBy le x l) := by
  induction l with
  | nil => simp [insertFieldBy, FieldSortedBy]
  | cons y t ih =>
    rcases List.pairwise_cons.mp h with ⟨hy, ht⟩
    by_cases hxy : le x.1 y.1 = true
    · simp only [insertFieldBy, hxy, if_true]
      refine List.pairwise_cons.mpr ⟨?_, h⟩
      intro b hb
      rcases List.mem_cons.mp hb with rfl | hb
      · exact hxy
      · exact htrans _ _ _ hxy (hy b hb)
    · simp only [insertFieldBy, hxy, Bool.false_eq_true, if_false]
      refine List.pairwise_cons.mpr ⟨?_, ih ht⟩
      intro b hb
      have hyx : le y.1 x.1 = true := by
        rcases htot x.1 y.1 with h' | h'
        · exact absurd h' hxy
        · exact h'
      have hmem := (insertFieldBy_perm le x t).mem_iff.mp hb
      rcases List.mem_cons.mp hmem with rfl | hb2
      · exact hyx
      · exact hy b hb2

theorem sortFieldsBy_sorted (le : String → String → Bool)
    (htot : ∀ a b, le a b = true ∨ le b a = true)
    (htrans : ∀ a b c, le a b = true → le b c = true → le a c = true)
    (ms : List (String × Json)) : FieldSortedBy le (sortFieldsBy le ms) := by
  induction ms with
  | nil => simp [sortFieldsBy, FieldSortedBy]
  | cons x t ih => exact insertFieldBy_sorted le htot htrans x (sortFieldsBy le t) ih

theorem keyLe_total (a b : String) : keyLe a b = true ∨ keyLe b a = true :=
  unitsLe_total _ _

theorem keyLe_trans (a b c : String) (h1 : keyLe a b = true) (h2 : keyLe b c = true) :
    keyLe a c = true :=
  unitsLe_trans h1 h2

theorem jcs_sorted_perm (ms : List (String × Json)) : (jcs_sorted ms).Perm ms :=
  sortFieldsBy_perm keyLe ms

theorem jcs_sorted_sorted (ms : List (String × Json)) : FieldSortedBy keyLe (jcs_sorted ms) :=
  sortFieldsBy_sorted keyLe keyLe_total keyLe_trans ms

/-! ## YAML rendering (`to_yaml`) -/

/-- Escape one character of a YAML string scalar.  The source applies five
sequential `str::replace` calls (backslash, quote, newline, carriage return,
tab, in that order); because no replacement output contains a later target,
the sequence equals this single per-character pass. -/
def yamlEscapeChar (c : Char) : List Char :=
  if c = '\\' then ['\\', '\\']
  else if c = '"' then ['\\', '"']
  else if c = '\n' then ['\\', 'n']
  else if c = '\r' then ['\\', 'r']
  else if c = '\t' then ['\\', 't']
  else [c]

/-- YAML string-scalar escaping (contents between the double quotes). -/
def yamlEscape (s : String) : String := ⟨s.data.flatMap yamlEscapeChar⟩

/-- Escape only double quotes; the fallback arm of `yaml_scalar` applies a single
`replace('"', "\\\"")` to the compact serialization. -/
def escQuotes (s : String) : String :=
  ⟨s.data.flatMap (fun c => if c = '"' then ['\\', '"'] else [c])⟩

/-- One scalar in YAML form: strings are always double-quoted and escaped, null,
booleans and numbers are bare, containers (unreachable from the object walk) fall
back to the quote-escaped compact serialization. -/
def yaml_scalar : Json → String
  | .strJ s => "\"" ++ yamlEscape s ++ "\""
  | .null => "null"
  | .boolJ b => if b then "true" else "false"
  | .numJ n => n.display
  | other => "\"" ++ escQuotes (serde_to_string other) ++ "\""

/-- Indentation: two spaces per level (`"  ".repeat(indent)`). -/
def indentPad (n : Nat) : String := ⟨List.replicate (2 * n) ' '⟩

mutual
/-- The YAML line renderer (`render_yaml`): an object renders its `jcs_sorted`
fields, anything else renders as one scalar line.  Produces the list of lines the
Rust code pushes into its `lines` vector. -/
def render_yaml : Json → Nat → List String
  | .obj ms, indent => renderYamlFields (jcs_sorted ms) indent
  | v, indent => [indentPad indent ++ yaml_scalar v]
termination_by v _ => 4 * Json.weight v
decreasing_by
  have hperm := Json.weightObj_perm (jcs_sorted_perm ms)
  simp only [Json.weight]
  omega
/-- One field of a YAML object, dispatched on the value's shape exactly as the
`match v` in the Rust loop body. -/
def renderYamlField : String → Json → Nat → List String
  | k, .obj inner, indent =>
      if inner.isEmpty then [indentPad indent ++ k ++ ": \x7b\x7d"]
      else (indentPad indent ++ k ++ ":") :: render_yaml (.obj inner) (indent + 1)
  | k, .arr items, indent =>
      if items.isEmpty then [indentPad indent ++ k ++ ": []"]
      else (indentPad indent ++ k ++ ":") :: renderYamlItems items indent
  | k, v, indent => [indentPad indent ++ k ++ ": " ++ yaml_scalar v]
termination_by _ v _ => 4 * Json.weight v + 1
decreasing_by
  · simp only [Json.weight]
    omega
  · simp only [Json.weight]
    omega
/-- The sorted fields of one object, in order. -/
def renderYamlFields : List (String × Json) → Nat → List String
  | [], _ => []
  | (k, v) :: rest, indent => renderYamlField k v indent ++ renderYamlFields rest indent
termination_by fields _ => 4 * Json.weightObj fields + 3
decreasing_by
  · simp only [Json.weightObj]
    omega
  · simp only [Json.weightObj]
    have h1 := Json.weight_pos v
    omega
/-- The items of a non-empty array field: objects become a dash line plus a nested
block two levels deeper, other items one dashed scalar line. -/
def renderYamlItems : List Json → Nat → List String
  | [], _ => []
  | item :: rest, indent =>
      (if item.is_object then (indentPad indent ++ "  -") :: render_yaml item (indent + 2)
       else [indentPad indent ++ "  - " ++ yaml_scalar item]) ++ renderYamlItems rest indent
termination_by items _ => 4 * Json.weightArr items + 3
decreasing_by
  · simp only [Json.weightArr]
    omega
  · simp only [Json.weightArr]
    have h1 := Json.weight_pos item
    omega
end

/-- Convert a JSON value into a YAML document (`to_yaml`): a `---` separator line
followed by the rendered lines, joined with newlines. -/
def to_yaml (v : Json) : String := String.intercalate "\n" ("---" :: render_yaml v 0)

/-! ## Binary64 arithmetic and fixed-point decimal formatting

The plain formatter prints `f64` quotients with Rust's two- and one-decimal
fixed formats.  Both steps of that pipeline are modelled exactly over
integers: first the IEEE 754 binary64 rounding of `u64`/`i64` conversion and
of division (round to nearest, ties to even), producing the double's exact
value as an unreduced fraction; then the decimal formatting, which in Rust
prints the correctly rounded `N`-digit expansion of that exact binary value,
ties to even (ties occur only at dyadic values such as `1.25`). -/

/-- Round the fraction `num / den` (`den` positive) to the nearest integer,
ties to even. -/
def roundHalfEvenFrac (num den : Int) : Int :=
  let q := num.fdiv den
  let r := num.emod den
  if 2 * r < den then q else if den < 2 * r then q + 1 else if q % 2 = 0 then q else q + 1

/-- Fixed-point rendering of the non-negative fraction `num / den` with exactly
`decimals` fractional digits, rounding ties to even (the sign is the caller's
concern, matching the source).  Applied to the exact value of a binary64
number this reproduces Rust's fixed-precision float format: Rust prints the
correctly rounded decimals of the exact binary value and also resolves the
(necessarily dyadic) decimal ties to even. -/
def fmtFixedFrac (decimals : Nat) (num : Int) (den : Nat) : String :=
  let scaled := (roundHalfEvenFrac (num * ((10 ^ decimals : Nat) : Int)) (den : Int)).toNat
  natStr (scaled / 10 ^ decimals) ++ "." ++ padZeros decimals (scaled % 10 ^ decimals)

/-- Bit length of a natural number; `fuel` bounds the recursion (4096 covers
every number below `2 ^ 4096`, far beyond the 64-bit inputs that reach it). -/
def natBits : Nat → Nat → Nat
  | 0, _ => 0
  | fuel + 1, n => if n = 0 then 0 else natBits fuel (n / 2) + 1

/-- Floor of the base-two logarithm, as an integer (`-1` on zero). -/
def natLog2f (n : Nat) : Int := (natBits 4096 n : Int) - 1

/-- Floor of the base-two logarithm of the positive fraction `num / den`: the
unique `e` with `2 ^ e ≤ num / den < 2 ^ (e + 1)`. -/
def fracLog2 (num den : Nat) : Int :=
  let k := natLog2f num - natLog2f den
  if 0 ≤ k then (if den * 2 ^ k.toNat ≤ num then k else k - 1)
  else (if den ≤ num * 2 ^ (-k).toNat then k else k - 1)

/-- IEEE 754 binary64 rounding of the positive fraction `num / den` (round to
nearest, ties to even): the significand–exponent pair `(m, s)` of the nearest
double, whose value is `m * 2 ^ s` with `m` the 53-bit significand.  The
subnormal and infinite ranges are not modelled; every quotient the formatters
build lies well inside the normal range. -/
def f64NearestFrac (num den : Nat) : Nat × Int :=
  let e := fracLog2 num den
  let s := e - 52
  let m := if 0 ≤ s then roundHalfEvenFrac (num : Int) ((den * 2 ^ s.toNat : Nat) : Int)
           else roundHalfEvenFrac ((num * 2 ^ (-s).toNat : Nat) : Int) (den : Int)
  (m.toNat, s)

/-- The exact value of the binary64 nearest to `num / den`, as an unreduced
fraction whose denominator is a power of two. -/
def f64ValueFrac (num den : Nat) : Nat × Nat :=
  let p := f64NearestFrac num den
  if 0 ≤ p.2 then (p.1 * 2 ^ p.2.toNat, 1) else (p.1, 2 ^ (-p.2).toNat)

/-- Rust `n as f64` on an unsigned integer: the exact value of the rounded
double (exact below `2 ^ 53`, correctly rounded above). -/
def f64OfNat (n : Nat) : Nat × Nat := f64ValueFrac n 1

/-! ## Helper formatters of the plain renderer -/

/-- Format bytes as a human-readable size with binary units (`format_bytes_human`).
The source computes `(bytes as f64).abs()` (one binary64 rounding, modelled by
`f64OfNat`), compares it with the unit thresholds, and divides by a power of
two — an exact exponent shift, no second rounding — before the one-decimal
format; below 1024 the signed integer itself is printed with a bare `B`. -/
def format_bytes_human (bytes : Int) : String :=
  let signStr := if bytes < 0 then "-" else ""
  let b := f64OfNat bytes.natAbs
  if 1024 ^ 4 * b.2 ≤ b.1 then signStr ++ fmtFixedFrac 1 (b.1 : Int) (b.2 * 1024 ^ 4) ++ "TB"
  else if 1024 ^ 3 * b.2 ≤ b.1 then signStr ++ fmtFixedFrac 1 (b.1 : Int) (b.2 * 1024 ^ 3) ++ "GB"
  else if 1024 ^ 2 * b.2 ≤ b.1 then signStr ++ fmtFixedFrac 1 (b.1 : Int) (b.2 * 1024 ^ 2) ++ "MB"
  else if 1024 * b.2 ≤ b.1 then signStr ++ fmtFixedFrac 1 (b.1 : Int) (b.2 * 1024) ++ "KB"
  else intStr bytes ++ "B"

/-- Walk the digit string inserting a comma before every later group of three
(the loop body of `format_with_commas`); `len` is the whole string's length and
`i` the current index. -/
def commaChars (len : Nat) : Nat → List Char → List Char
  | _, [] => []
  | i, c :: rest =>
      (if 0 < i ∧ (len - i) % 3 = 0 then [','] else []) ++ c :: commaChars len (i + 1) rest

/-- Format a number with thousands separators (`format_with_commas`). -/
def format_with_commas (n : Nat) : String :=
  ⟨commaChars (natStr n).data.length 0 (natStr n).data⟩

/-- The characters after the last underscore, if any (`str::rfind('_')` plus the
slice that follows it). -/
def afterLastUnderscore : List Char → Option (List Char)
  | [] => none
  | c :: rest =>
      match afterLastUnderscore rest with
      | some r => some r
      | none => if c = '_' then some rest else none

/-- Extract the currency code from a `_{code}_cents` suffix
(`extract_currency_code`): strip `_cents`, then take what follows the last
remaining underscore. -/
def extract_currency_code (key : String) : Option String :=
  if ends_with key "_cents" then
    match afterLastUnderscore (key.data.take (key.data.length - 6)) with
    | some code => some ⟨code⟩
    | none => none
  else none

/-! ## RFC 3339 timestamps (`format_rfc3339_ms` over `chrono`) -/

/-- Proleptic-Gregorian civil date from days since 1970-01-01 (the algorithm
`chrono` evaluates for timestamp conversion; floor division throughout, so
negative epochs land before 1970). Returns `(year, month, day)`. -/
def civilFromDays (z : Int) : Int × Int × Int :=
  let z2 := z + 719468
  let era := z2.fdiv 146097
  let doe := z2 - era * 146097
  let yoe := (doe - doe.fdiv 1460 + doe.fdiv 36524 - doe.fdiv 146096).fdiv 365
  let y := yoe + era * 400
  let doy := doe - (365 * yoe + yoe.fdiv 4 - yoe.fdiv 100)
  let mp := (5 * doy + 2).fdiv 153
  let d := doy - (153 * mp + 2).fdiv 5 + 1
  let m := if mp < 10 then mp + 3 else mp - 9
  (if m ≤ 2 then y + 1 else y, m, d)

/-- Days since 1970-01-01 of a civil date (inverse of `civilFromDays`; used only
to state `chrono`'s representable range). -/
def daysFromCivil (y m d : Int) : Int :=
  let y2 := if m ≤ 2 then y - 1 else y
  let era := y2.fdiv 400
  let yoe := y2 - era * 400
  let doy := (153 * (if 2 < m then m - 3 else m + 9) + 2).fdiv 5 + d - 1
  let doe := yoe * 365 + yoe.fdiv 4 - yoe.fdiv 100 + doy
  era * 146097 + doe - 719468

/-- Smallest second `chrono::DateTime::from_timestamp` accepts (the timestamp of
`NaiveDate::MIN`, January 1 of year -262144; modelled from `chrono`'s documented
representable range). -/
def chronoMinSecs : Int := daysFromCivil (-262144) 1 1 * 86400

/-- Largest second `chrono::DateTime::from_timestamp` accepts (the last second of
`NaiveDate::MAX`, December 31 of year 262142). -/
def chronoMaxSecs : Int := daysFromCivil 262142 12 31 * 86400 + 86399

/-- Zero-padded four-digit year as `chrono`'s RFC 3339 formatter prints it (a sign
precedes the padded digits for negative years). -/
def yearStr (y : Int) : String :=
  if y < 0 then "-" ++ padZeros 4 y.natAbs else padZeros 4 y.toNat

/-- Convert unix milliseconds (signed) to RFC 3339 with UTC timezone and millisecond
precision (`format_rfc3339_ms`): Euclidean split into seconds and milliseconds,
civil-date conversion, `Z` suffix; out of `chrono`'s range the raw number is
returned instead. -/
def format_rfc3339_ms (ms : Int) : String :=
  let secs := ms.fdiv 1000
  let millis := ms.emod 1000
  if chronoMinSecs ≤ secs ∧ secs ≤ chronoMaxSecs then
    let days := secs.fdiv 86400
    let sod := secs.emod 86400
    let ymd := civilFromDays days
    yearStr ymd.1 ++ "-" ++ padZeros 2 ymd.2.1.toNat ++ "-" ++ padZeros 2 ymd.2.2.toNat ++
      "T" ++ padZeros 2 (sod.fdiv 3600).toNat ++ ":" ++ padZeros 2 ((sod.emod 3600).fdiv 60).toNat ++
      ":" ++ padZeros 2 (sod.emod 60).toNat ++ "." ++ padZeros 3 millis.toNat ++ "Z"
  else intStr ms

/-! ## Plain scalar and the suffix-driven field formatter -/

/-- Plain scalar: no quotes, raw value (`plain_scalar`); containers fall back to
the compact serialization (`Value`'s `Display`). -/
def plain_scalar : Json → String
  | .strJ s => s
  | .null => "null"
  | .boolJ b => if b then "true" else "false"
  | .numJ n => n.display
  | other => serde_to_string other

/-- The `i64` range. -/
def fitsI64 (x : Int) : Prop := -(2 ^ 63) ≤ x ∧ x < 2 ^ 63

instance (x : Int) : Decidable (fitsI64 x) := by
  unfold fitsI64
  infer_instance

/-- Wrap-around of Rust `i64` arithmetic: reduce modulo `2^64` into the signed
range.  Under debug assertions Rust instead panics when the exact result is out
of range (`fitsI64` fails). -/
def wrapI64 (x : Int) : Int := (x + 2 ^ 63).emod (2 ^ 64) - 2 ^ 63

/-- The `_secret` rule: always redact on a suffix match, whatever the value. -/
def trySecret (lower : String) (_value : Json) : Option String :=
  if ends_with lower "_secret" then some "***" else none

/-- The `_epoch_ms` rule: an `i64` renders as RFC 3339; other values fall through. -/
def tryEpochMs (lower : String) (value : Json) : Option String :=
  if ends_with lower "_epoch_ms" then (value.as_i64).map format_rfc3339_ms else none

/-- The `_epoch_s` rule.  The source computes `s * 1000` on `i64` without an
overflow check: we model the release-build wrap-around with `wrapI64`; under
debug assertions the same multiplication panics whenever `fitsI64 (s * 1000)`
fails. -/
def tryEpochS (lower : String) (value : Json) : Option String :=
  if ends_with lower "_epoch_s" then
    (value.as_i64).map (fun s => format_rfc3339_ms (wrapI64 (s * 1000)))
  else none

/-- The `_epoch_ns` rule: Euclidean division to milliseconds, then RFC 3339. -/
def tryEpochNs (lower : String) (value : Json) : Option String :=
  if ends_with lower "_epoch_ns" then
    (value.as_i64).map (fun ns => format_rfc3339_ms (ns.fdiv 1000000))
  else none

/-- The `_rfc3339` rule: pass any value through as a plain scalar. -/
def tryRfc3339 (lower : String) (value : Json) : Option String :=
  if ends_with lower "_rfc3339" then some (plain_scalar value) else none

/-- The `_bytes` rule: an `i64` renders human-readable. -/
def tryBytes (lower : String) (value : Json) : Option String :=
  if ends_with lower "_bytes" then (value.as_i64).map format_bytes_human else none

/-- The `_percent` rule: any number gets a `%` suffix. -/
def tryPercent (lower : String) (value : Json) : Option String :=
  if ends_with lower "_percent" ∧ value.is_number then some (plain_scalar value ++ "%")
  else none

/-- The `_msats` rule. -/
def tryMsats (lower : String) (value : Json) : Option String :=
  if ends_with lower "_msats" ∧ value.is_number then some (plain_scalar value ++ "msats")
  else none

/-- The `_sats` rule. -/
def trySats (lower : String) (value : Json) : Option String :=
  if ends_with lower "_sats" ∧ value.is_number then some (plain_scalar value ++ "sats")
  else none

/-- The `_btc` rule. -/
def tryBtc (lower : String) (value : Json) : Option String :=
  if ends_with lower "_btc" ∧ value.is_number then some (plain_scalar value ++ " BTC")
  else none

/-- The `_usd_cents` rule: an unsigned integer becomes `$<dollars>.<cents>`. -/
def tryUsdCents (lower : String) (value : Json) : Option String :=
  if ends_with lower "_usd_cents" then
    (value.as_u64).map (fun n => "$" ++ natStr (n / 100) ++ "." ++ padZeros 2 (n % 100))
  else none

/-- The `_eur_cents` rule. -/
def tryEurCents (lower : String) (value : Json) : Option String :=
  if ends_with lower "_eur_cents" then
    (value.as_u64).map (fun n => "€" ++ natStr (n / 100) ++ "." ++ padZeros 2 (n % 100))
  else none

/-- The `_jpy` rule: an unsigned integer with thousands separators after `¥`. -/
def tryJpy (lower : String) (value : Json) : Option String :=
  if ends_with lower "_jpy" then
    (value.as_u64).map (fun n => "¥" ++ format_with_commas n)
  else none

/-- The generic `_{code}_cents` rule: extract the code, then format an unsigned
integer as `<int>.<2-digit> <CODE>`. -/
def tryCents (lower : String) (value : Json) : Option String :=
  if ends_with lower "_cents" then
    match extract_currency_code lower with
    | some code =>
        (value.as_u64).map (fun n =>
          natStr (n / 100) ++ "." ++ padZeros 2 (n % 100) ++ " " ++ str_to_uppercase code)
    | none => none
  else none

/-- The `_minutes` rule. -/
def tryMinutes (lower : String) (value : Json) : Option String :=
  if ends_with lower "_minutes" ∧ value.is_number then some (plain_scalar value ++ " minutes")
  else none

/-- The `_hours` rule. -/
def tryHours (lower : String) (value : Json) : Option String :=
  if ends_with lower "_hours" ∧ value.is_number then some (plain_scalar value ++ " hours")
  else none

/-- The `_days` rule. -/
def tryDays (lower : String) (value : Json) : Option String :=
  if ends_with lower "_days" ∧ value.is_number then some (plain_scalar value ++ " days")
  else none

/-- The seconds text of the `_ms` rule: Rust's two-decimal format of
`x / 1000.0`, where the double `x` is given as the exact fraction
`xnum / xden` — an IEEE binary64 division (`f64ValueFrac`, round to nearest,
ties to even) followed by the two-decimal rendering of the quotient's exact
value. -/
def msSecondsText (xnum xden : Nat) : String :=
  let y := f64ValueFrac xnum (xden * 1000)
  fmtFixedFrac 2 (y.1 : Int) y.2 ++ "s"

/-- The `_ms` rule (excluding `_epoch_ms`): a `u64` at or above 1000 becomes
seconds — `n as f64` (`f64OfNat`), divided by `1000.0` in binary64 and printed
with two fixed decimals (`msSecondsText`) — and below 1000 it becomes `<n>ms`;
otherwise the source retries `as_f64`, which succeeds only for the
negative-integer arm (always below `1000.0`, so `<n>ms`) and the float arm
(its comparison `1000.0 <= x` on the exact fraction `num / den` is
`1000 * den <= num`, and at or above the threshold — hence positive — the same
divide-and-print pipeline runs on it). -/
def tryMs (lower : String) (value : Json) : Option String :=
  if ends_with lower "_ms" ∧ ¬ ends_with lower "_epoch_ms" then
    match value.as_u64 with
    | some n =>
        some (if 1000 ≤ n then msSecondsText (f64OfNat n).1 (f64OfNat n).2
              else natStr n ++ "ms")
    | none =>
        match value with
        | .numJ (.negInt m) => some (JNum.display (.negInt m) ++ "ms")
        | .numJ (.float text num den) =>
            some (if 1000 * (den : Int) ≤ num then msSecondsText num.toNat den
                  else text ++ "ms")
        | _ => none
  else none

/-- The `_ns` rule (excluding `_epoch_ns`). -/
def tryNs (lower : String) (value : Json) : Option String :=
  if ends_with lower "_ns" ∧ ¬ ends_with lower "_epoch_ns" ∧ value.is_number then
    some (plain_scalar value ++ "ns")
  else none

/-- The `_us` rule. -/
def tryUs (lower : String) (value : Json) : Option String :=
  if ends_with lower "_us" ∧ value.is_number then some (plain_scalar value ++ "μs")
  else none

/-- The `_s` rule (excluding `_epoch_s`). -/
def tryS (lower : String) (value : Json) : Option String :=
  if ends_with lower "_s" ∧ ¬ ends_with lower "_epoch_s" ∧ value.is_number then
    some (plain_scalar value ++ "s")
  else none

/-- Format a scalar value for plain output, applying the suffix-driven rules in
the source's order (`format_plain_field`).  Each `try*` helper mirrors one
early-return block: `none` means that block fell through (suffix mismatch or
wrong value type) and control continues to the next rule; the final fallback is
the raw scalar under no transformation. -/
def format_plain_field (key : String) (value : Json) : String :=
  let lower := to_ascii_lowercase key
  ((((((((((((((((((((trySecret lower value).or
    (tryEpochMs lower value)).or
    (tryEpochS lower value)).or
    (tryEpochNs lower value)).or
    (tryRfc3339 lower value)).or
    (tryBytes lower value)).or
    (tryPercent lower value)).or
    (tryMsats lower value)).or
    (trySats lower value)).or
    (tryBtc lower value)).or
    (tryUsdCents lower value)).or
    (tryEurCents lower value)).or
    (tryJpy lower value)).or
    (tryCents lower value)).or
    (tryMinutes lower value)).or
    (tryHours lower value)).or
    (tryDays lower value)).or
    (tryMs lower value)).or
    (tryNs lower value)).or
    (tryUs lower value)).or
    (tryS lower value) |>.getD (plain_scalar value)

/-! ## Plain rendering (`to_plain`) -/

mutual
/-- The plain-text line renderer (`render_plain`): an object renders its
`jcs_sorted` fields, anything else renders as one plain-scalar line. -/
def render_plain : Json → Nat → List String
  | .obj ms, indent => renderPlainFields (jcs_sorted ms) indent
  | v, indent => [indentPad indent ++ plain_scalar v]
termination_by v _ => 4 * Json.weight v
decreasing_by
  have hperm := Json.weightObj_perm (jcs_sorted_perm ms)
  simp only [Json.weight]
  omega
/-- One field of a plain object: nested objects recurse one level deeper, arrays
get the dashed-item treatment, scalars go through `format_plain_field`. -/
def renderPlainField : String → Json → Nat → List String
  | k, .obj inner, indent =>
      (indentPad indent ++ k ++ ":") :: render_plain (.obj inner) (indent + 1)
  | k, .arr items, indent =>
      if items.isEmpty then [indentPad indent ++ k ++ ": []"]
      else if items.all (fun v => ¬ v.is_object ∧ ¬ v.is_array) then
        (indentPad indent ++ k ++ ":") ::
          items.map (fun item => indentPad indent ++ "  - " ++ plain_scalar item)
      else (indentPad indent ++ k ++ ":") :: renderPlainItems items indent
  | k, v, indent => [indentPad indent ++ k ++ ": " ++ format_plain_field k v]
termination_by _ v _ => 4 * Json.weight v + 1
decreasing_by
  · simp only [Json.weight]
    omega
  · simp only [Json.weight]
    omega
/-- The sorted fields of one plain object, in order. -/
def renderPlainFields : List (String × Json) → Nat → List String
  | [], _ => []
  | (k, v) :: rest, indent => renderPlainField k v indent ++ renderPlainFields rest indent
termination_by fields _ => 4 * Json.weightObj fields + 3
decreasing_by
  · simp only [Json.weightObj]
    omega
  · simp only [Json.weightObj]
    have h1 := Json.weight_pos v
    omega
/-- Items of a mixed array field: objects become a dash line plus a nested block
two levels deeper, other items one dashed plain-scalar line. -/
def renderPlainItems : List Json → Nat → List String
  | [], _ => []
  | item :: rest, indent =>
      (if item.is_object then (indentPad indent ++ "  -") :: render_plain item (indent + 2)
       else [indentPad indent ++ "  - " ++ plain_scalar item]) ++ renderPlainItems rest indent
termination_by items _ => 4 * Json.weightArr items + 3
decreasing_by
  · simp only [Json.weightArr]
    omega
  · simp only [Json.weightArr]
    have h1 := Json.weight_pos item
    omega
end

/-- Convert a JSON value into human-readable plain text (`to_plain`): the rendered
lines joined with newlines, no leading separator. -/
def to_plain (v : Json) : String := String.intercalate "\n" (render_plain v 0)

/-! ## Output formats (`OutputFormat::format`) -/

/-- Output format for CLI and API responses (`OutputFormat`). -/
inductive OutputFormat where
  | json
  | yaml
  | plain

/-- Format a JSON value as a single compact line, a YAML document, or plain text
(`OutputFormat::format`).  The JSON arm is `serde_json::to_string` of the value
exactly as given. -/
def OutputFormat.format : OutputFormat → Json → String
  | .json, v => serde_to_string v
  | .yaml, v => to_yaml v
  | .plain, v => to_plain v

/-! ## Secret redaction (`redact_secrets`) -/

/-- The redactor's key test: the ASCII-lowercased key ends in `_secret`. -/
def isSecretKey (k : String) : Bool := ends_with (to_ascii_lowercase k) "_secret"

mutual
/-- Walk a JSON Value tree and redact any field ending in `_secret`
(`redact_secrets`, written as a pure function on the tree): in every object the
string values under secret keys are first replaced (the `secret_keys` pass —
each key of `serde_json`'s map is unique, so the collect-then-mutate loop equals
this per-entry update), then every value is recursed into. -/
def redact_secrets : Json → Json
  | .null => .null
  | .boolJ b => .boolJ b
  | .numJ n => .numJ n
  | .strJ s => .strJ s
  | .arr es => .arr (redactArr es)
  | .obj ms => .obj (redactObj ms)
/-- Redaction of a value sitting under a secret key: the first pass replaces it
when it is a string, then the recursive pass runs on the result (for a replaced
string that recursion is the identity, otherwise it is `redact_secrets` itself). -/
def redactSecretValue : Json → Json
  | .strJ _ => .strJ "***"
  | .null => .null
  | .boolJ b => .boolJ b
  | .numJ n => .numJ n
  | .arr es => .arr (redactArr es)
  | .obj ms => .obj (redactObj ms)
/-- Elementwise redaction of array items. -/
def redactArr : List Json → List Json
  | [] => []
  | e :: es => redact_secrets e :: redactArr es
/-- Entrywise redaction of object fields (replacement under secret keys, then
recursion). -/
def redactObj : List (String × Json) → List (String × Json)
  | [] => []
  | (k, v) :: ms =>
      (k, if isSecretKey k then redactSecretValue v else redact_secrets v) :: redactObj ms
end

/-! ## Map-content equality and canonical iteration order

`serde_json`'s map type (the default `BTreeMap` backing — the crate sources
under scrutiny enable no `preserve_order` feature) stores object entries
keyed by `String`'s byte order, so two `Value` maps holding the same
key-to-value associations iterate identically however they were built.
`canonValue` models that normalization: it sorts every object's field list
by the keys' code-point order (UTF-8 byte order coincides with code-point
order), recursively.  `MapEquiv` is equality of trees as key-to-value maps:
equal scalars, elementwise-equivalent arrays, and objects whose field lists
are permutations of pointwise-equivalent lists with duplicate-free keys. -/

/-- Code-point lexicographic "less or equal" on strings, the comparison of
`String`'s `Ord` (UTF-8 byte order equals code-point order). -/
def cpLe (a b : String) : Bool := unitsLe (a.data.map Char.toNat) (b.data.map Char.toNat)

mutual
/-- Canonical form of a tree: every object's fields sorted by key in the map's
iteration order. -/
def canonValue : Json → Json
  | .null => .null
  | .boolJ b => .boolJ b
  | .numJ n => .numJ n
  | .strJ s => .strJ s
  | .arr es => .arr (canonArr es)
  | .obj ms => .obj (sortFieldsBy cpLe (canonObj ms))
/-- Canonical form of array elements. -/
def canonArr : List Json → List Json
  | [] => []
  | e :: es => canonValue e :: canonArr es
/-- Canonical form of object field values (before sorting the entries). -/
def canonObj : List (String × Json) → List (String × Json)
  | [] => []
  | (k, v) :: ms => (k, canonValue v) :: canonObj ms
end

/-- Duplicate-free keys of an object's field list. -/
def NodupKeys (ms : List (String × Json)) : Prop := (ms.map Prod.fst).Nodup

mutual
/-- Equality of two trees as key-to-value maps (insertion order of object fields
disregarded; array order significant). -/
inductive MapEquiv : Json → Json → Prop where
  | nullE : MapEquiv .null .null
  | boolE (b : Bool) : MapEquiv (.boolJ b) (.boolJ b)
  | numE (n : JNum) : MapEquiv (.numJ n) (.numJ n)
  | strE (s : String) : MapEquiv (.strJ s) (.strJ s)
  | arrE {as bs : List Json} : ArrEquiv as bs → MapEquiv (.arr as) (.arr bs)
  | objE {m1 l m2 : List (String × Json)} :
      NodupKeys m1 → ObjEquiv m1 l → l.Perm m2 → MapEquiv (.obj m1) (.obj m2)
/-- Elementwise map-equality of array element lists. -/
inductive ArrEquiv : List Json → List Json → Prop where
  | nil : ArrEquiv [] []
  | cons {a b : Json} {as bs : List Json} :
      MapEquiv a b → ArrEquiv as bs → ArrEquiv (a :: as) (b :: bs)
/-- Pointwise map-equality of field lists: same keys in the same positions,
equivalent values. -/
inductive ObjEquiv : List (String × Json) → List (String × Json) → Prop where
  | nil : ObjEquiv [] []
  | cons {k : String} {v w : Json} {ms ns : List (String × Json)} :
      MapEquiv v w → ObjEquiv ms ns → ObjEquiv ((k, v) :: ms) ((k, w) :: ns)
end

theorem cpLe_total (a b : String) : cpLe a b = true ∨ cpLe b a = true :=
  unitsLe_total _ _

theorem cpLe_trans (a b c : String) (h1 : cpLe a b = true) (h2 : cpLe b c = true) :
    cpLe a c = true :=
  unitsLe_trans h1 h2

theorem cpLe_antisymm {a b : String} (h1 : cpLe a b = true) (h2 : cpLe b a = true) : a = b := by
  have hu := unitsLe_antisymm h1 h2
  have hdata : a.data = b.data := by
    have hinj : Function.Injective Char.toNat := by
      intro c d h
      have hc := Char.ofNat_toNat c
      have hd := Char.ofNat_toNat d
      rw [← hc, ← hd, h]
    exact List.map_injective_iff.mpr hinj hu
  cases a
  cases b
  exact congrArg String.mk hdata

/-- Two field lists sorted by the same total, key-antisymmetric comparison,
holding the same entries (as a permutation) with duplicate-free keys, are
equal. -/
theorem sorted_perm_nodupKeys_eq (le : String → String → Bool)
    (htot : ∀ a b, le a b = true ∨ le b a = true)
    (hanti : ∀ a b, le a b = true → le b a = true → a = b)
    {l1 l2 : List (String × Json)} (hperm : l1.Perm l2)
    (hs1 : FieldSortedBy le l1) (hs2 : FieldSortedBy le l2) (hnd : NodupKeys l1) :
    l1 = l2 := by
  have hrefl : ∀ a, le a a = true := by
    intro a
    rcases htot a a with h | h
    · exact h
    · exact h
  induction l1 generalizing l2 with
  | nil => exact (List.Perm.nil_eq hperm)
  | cons x t1 ih =>
    cases l2 with
    | nil => exact absurd hperm.symm (by simp)
    | cons y t2 =>
      rcases List.pairwise_cons.mp hs1 with ⟨hx, ht1⟩
      rcases List.pairwise_cons.mp hs2 with ⟨hy, ht2⟩
      have hxmem : x ∈ y :: t2 := hperm.mem_iff.mp (by simp)
      have hymem : y ∈ x :: t1 := hperm.symm.mem_iff.mp (by simp)
      have hlxy : le x.1 y.1 = true := by
        rcases List.mem_cons.mp hymem with h | hyin
        · rw [h]
          exact hrefl _
        · exact hx y hyin
      have hlyx : le y.1 x.1 = true := by
        rcases List.mem_cons.mp hxmem with h | hxin
        · rw [h]
          exact hrefl _
        · exact hy x hxin
      have hkeys : x.1 = y.1 := hanti _ _ hlxy hlyx
      have hxy : x = y := by
        rcases List.mem_cons.mp hxmem with h | hxin
        · exact h
        · rcases List.mem_cons.mp hymem with h | hyin
          · exact h.symm
          · exfalso
            have hin : x.1 ∈ t1.map Prod.fst := hkeys ▸ List.mem_map_of_mem Prod.fst hyin
            have hout : x.1 ∉ t1.map Prod.fst := (List.nodup_cons.mp hnd).1
            exact hout hin
      subst hxy
      have hperm2 : t1.Perm t2 := (List.perm_cons x).mp hperm
      have hnd2 : NodupKeys t1 := (List.nodup_cons.mp hnd).2
      rw [ih hperm2 ht1 ht2 hnd2]

theorem canonObj_eq_map (ms : List (String × Json)) :
    canonObj ms = ms.map (fun kv => (kv.1, canonValue kv.2)) := by
  induction ms with
  | nil => rfl
  | cons kv rest ih =>
      obtain ⟨k, v⟩ := kv
      simp only [canonObj, List.map_cons, ih]

theorem canonObj_keys (ms : List (String × Json)) :
    (canonObj ms).map Prod.fst = ms.map Prod.fst := by
  rw [canonObj_eq_map, List.map_map]
  rfl

theorem objEquiv_keys : ∀ {ms ns : List (String × Json)}, ObjEquiv ms ns →
    ms.map Prod.fst = ns.map Prod.fst
  | _, _, .nil => rfl
  | _, _, .cons _ t => by
      simp only [List.map_cons]
      rw [objEquiv_keys t]

mutual
theorem mapEquiv_canon : ∀ {v w : Json}, MapEquiv v w → canonValue v = canonValue w
  | _, _, .nullE => rfl
  | _, _, .boolE _ => rfl
  | _, _, .numE _ => rfl
  | _, _, .strE _ => rfl
  | _, _, .arrE h => by
      simp only [canonValue]
      rw [arrEquiv_canon h]
  | _, _, @MapEquiv.objE m1 l m2 hnd hobj hperm => by
      simp only [canonValue]
      congr 1
      have hco : canonObj m1 = canonObj l := objEquiv_canon hobj
      have hperm2 : (canonObj l).Perm (canonObj m2) := by
        rw [canonObj_eq_map, canonObj_eq_map]
        exact hperm.map _
      have hbig : (sortFieldsBy cpLe (canonObj m1)).Perm (sortFieldsBy cpLe (canonObj m2)) :=
        ((sortFieldsBy_perm cpLe _).trans (hco ▸ hperm2)).trans (sortFieldsBy_perm cpLe _).symm
      apply sorted_perm_nodupKeys_eq cpLe cpLe_total (fun a b => cpLe_antisymm) hbig
      · exact sortFieldsBy_sorted cpLe cpLe_total cpLe_trans _
      · exact sortFieldsBy_sorted cpLe cpLe_total cpLe_trans _
      · have hkeys : ((sortFieldsBy cpLe (canonObj m1)).map Prod.fst).Perm
            ((canonObj m1).map Prod.fst) :=
          ((sortFieldsBy_perm cpLe (canonObj m1)).map Prod.fst)
        refine (hkeys.nodup_iff).mpr ?_
        rw [canonObj_keys]
        exact hnd
theorem arrEquiv_canon : ∀ {as bs : List Json}, ArrEquiv as bs → canonArr as = canonArr bs
  | _, _, .nil => rfl
  | _, _, .cons h t => by
      simp only [canonArr]
      rw [mapEquiv_canon h, arrEquiv_canon t]
theorem objEquiv_canon : ∀ {ms ns : List (String × Json)}, ObjEquiv ms ns →
    canonObj ms = canonObj ns
  | _, _, .nil => rfl
  | _, _, .cons h t => by
      simp only [canonObj]
      rw [mapEquiv_canon h, objEquiv_canon t]
end

/-! ## Redaction lemmas -/

theorem redactSecretValue_eq (v : Json) :
    redactSecretValue v = if v.is_string then Json.strJ "***" else redact_secrets v := by
  cases v <;> rfl

theorem redactArr_eq_map (l : List Json) : redactArr l = l.map redact_secrets := by
  induction l with
  | nil => rfl
  | cons e es ih => simp only [redactArr, List.map_cons, ih]

theorem redactObj_eq_map (l : List (String × Json)) :
    redactObj l = l.map (fun kv =>
      (kv.1, if isSecretKey kv.1 ∧ kv.2.is_string then Json.strJ "***"
             else redact_secrets kv.2)) := by
  induction l with
  | nil => rfl
  | cons kv ms ih =>
      obtain ⟨k, v⟩ := kv
      simp only [redactObj, List.map_cons, ih]
      by_cases hs : isSecretKey k = true
      · rw [if_pos hs, redactSecretValue_eq]
        by_cases hstr : v.is_string = true
        · rw [if_pos hstr, if_pos ⟨hs, hstr⟩]
        · rw [if_neg hstr, if_neg (fun hc => hstr hc.2)]
      · rw [if_neg hs, if_neg (fun hc => hs hc.1)]

theorem redact_keys (ms : List (String × Json)) :
    (redactObj ms).map Prod.fst = ms.map Prod.fst := by
  rw [redactObj_eq_map, List.map_map]
  rfl

theorem redactArr_length (l : List Json) : (redactArr l).length = l.length := by
  rw [redactArr_eq_map, List.length_map]

theorem redact_idem : ∀ j : Json, redact_secrets (redact_secrets j) = redact_secrets j := by
  intro j
  induction j using Json.myInduction with
  | h0 => rfl
  | h1 b => rfl
  | h2 n => rfl
  | h3 s => rfl
  | harr es ih =>
      simp only [redact_secrets, Json.arr.injEq]
      induction es with
      | nil => rfl
      | cons e rest ihl =>
          simp only [redactArr, List.cons.injEq]
          exact ⟨ih e (by simp), ihl (fun x hx => ih x (by simp [hx]))⟩
  | hobj ms ih =>
      simp only [redact_secrets, Json.obj.injEq]
      induction ms with
      | nil => rfl
      | cons kv rest ihl =>
          obtain ⟨k, v⟩ := kv
          have hv : redact_secrets (redact_secrets v) = redact_secrets v := ih ⟨k, v⟩ (by simp)
          have hrest : redactObj (redactObj rest) = redactObj rest :=
            ihl (fun p hp => ih p (by simp [hp]))
          by_cases hs : isSecretKey k = true
          · simp only [redactObj, if_pos hs, List.cons.injEq, Prod.mk.injEq, true_and]
            refine ⟨?_, hrest⟩
            cases v with
            | strJ s => rfl
            | null => simp [redactSecretValue, redact_secrets]
            | boolJ b => simp [redactSecretValue, redact_secrets]
            | numJ n => simp [redactSecretValue, redact_secrets]
            | arr es2 => simpa [redactSecretValue, redact_secrets] using hv
            | obj ms2 => simpa [redactSecretValue, redact_secrets] using hv
          · simp only [redactObj, if_neg hs, List.cons.injEq, Prod.mk.injEq, true_and]
            exact ⟨hv, hrest⟩

/-! ## Rendering of all-scalar objects -/

theorem indentPad_zero : indentPad 0 = "" := rfl

theorem empty_str_append (s : String) : "" ++ s = s := rfl

/-- A field list of scalar values renders in YAML as one `key: scalar` line per
field, in order. -/
theorem renderYamlFields_scalars (fields : List (String × Json)) (ind : Nat)
    (h : fields.all (fun kv => !kv.2.is_object && !kv.2.is_array) = true) :
    renderYamlFields fields ind =
      fields.map (fun kv => indentPad ind ++ kv.1 ++ ": " ++ yaml_scalar kv.2) := by
  induction fields with
  | nil => simp [renderYamlFields]
  | cons kv rest ih =>
      obtain ⟨k, v⟩ := kv
      rw [List.all_cons] at h
      rcases Bool.and_eq_true_iff.mp h with ⟨hv, hrest⟩
      have hr := ih hrest
      cases v with
      | null => simp only [renderYamlFields, renderYamlField, hr, List.map_cons, List.singleton_append]
      | boolJ b => simp only [renderYamlFields, renderYamlField, hr, List.map_cons, List.singleton_append]
      | numJ n => simp only [renderYamlFields, renderYamlField, hr, List.map_cons, List.singleton_append]
      | strJ s => simp only [renderYamlFields, renderYamlField, hr, List.map_cons, List.singleton_append]
      | arr es => simp [Json.is_array] at hv
      | obj ms => simp [Json.is_object] at hv

/-- A field list of scalar values renders in plain text as one
`key: format_plain_field` line per field, in order. -/
theorem renderPlainFields_scalars (fields : List (String × Json)) (ind : Nat)
    (h : fields.all (fun kv => !kv.2.is_object && !kv.2.is_array) = true) :
    renderPlainFields fields ind =
      fields.map (fun kv => indentPad ind ++ kv.1 ++ ": " ++ format_plain_field kv.1 kv.2) := by
  induction fields with
  | nil => simp [renderPlainFields]
  | cons kv rest ih =>
      obtain ⟨k, v⟩ := kv
      rw [List.all_cons] at h
      rcases Bool.and_eq_true_iff.mp h with ⟨hv, hrest⟩
      have hr := ih hrest
      cases v with
      | null => simp only [renderPlainFields, renderPlainField, hr, List.map_cons, List.singleton_append]
      | boolJ b => simp only [renderPlainFields, renderPlainField, hr, List.map_cons, List.singleton_append]
      | numJ n => simp only [renderPlainFields, renderPlainField, hr, List.map_cons, List.singleton_append]
      | strJ s => simp only [renderPlainFields, renderPlainField, hr, List.map_cons, List.singleton_append]
      | arr es => simp [Json.is_array] at hv
      | obj ms => simp [Json.is_object] at hv

theorem all_of_perm {p : (String × Json) → Bool} {l1 l2 : List (String × Json)}
    (hperm : l1.Perm l2) (h : l1.all p = true) : l2.all p = true := by
  rw [List.all_eq_true] at h ⊢
  intro x hx
  exact h x (hperm.mem_iff.mpr hx)

/-! ## Absence of newlines in the compact serialization -/

/-- No raw newline character occurs in the string. -/
def hasNoNewline (s : String) : Bool := s.data.all (fun c => c != '\n')

theorem strData_append (a b : String) : (a ++ b).data = a.data ++ b.data := rfl

theorem hasNoNewline_append (a b : String) :
    hasNoNewline (a ++ b) = (hasNoNewline a && hasNoNewline b) := by
  simp only [hasNoNewline, strData_append, List.all_append]

theorem digitCh_ne_nl : ∀ d, d < 10 → (digitCh d != '\n') = true := by decide

theorem hexCh_ne_nl : ∀ m, m < 16 → (hexCh m != '\n') = true := by decide

theorem natStrAux_noNL (fuel n : Nat) : (natStrAux fuel n).all (fun c => c != '\n') = true := by
  induction fuel generalizing n with
  | zero => rfl
  | succ f ih =>
      by_cases h : n < 10
      · simp only [natStrAux, if_pos h, List.all_cons, List.all_nil, Bool.and_true]
        exact digitCh_ne_nl n h
      · simp only [natStrAux, if_neg h, List.all_append, List.all_cons, List.all_nil,
          Bool.and_true]
        exact Bool.and_eq_true_iff.mpr ⟨ih (n / 10), digitCh_ne_nl (n % 10) (Nat.mod_lt n (by omega))⟩

theorem natStr_noNL (n : Nat) : hasNoNewline (natStr n) = true := natStrAux_noNL _ _

/-- The allowed character set of a modelled float display text: the characters
`serde_json`'s Ryu-based formatter can emit for a finite `f64`. -/
def floatTextOk (t : String) : Bool :=
  t.data.all (fun c => ('0' ≤ c && c ≤ '9') || c == '.' || c == '-' || c == 'e')

/-- Well-formedness of a number: a float's display text draws from the Ryu
character set. -/
def JNum.wf : JNum → Bool
  | .float t _ _ => floatTextOk t
  | _ => true

mutual
/-- Well-formedness of a tree: every float's display text draws from the Ryu
character set (true of every tree `serde_json` can actually produce). -/
def Json.wfFloats : Json → Bool
  | .null => true
  | .boolJ _ => true
  | .numJ n => n.wf
  | .strJ _ => true
  | .arr es => Json.wfFloatsArr es
  | .obj ms => Json.wfFloatsObj ms
/-- Float well-formedness over array elements. -/
def Json.wfFloatsArr : List Json → Bool
  | [] => true
  | e :: es => Json.wfFloats e && Json.wfFloatsArr es
/-- Float well-formedness over object fields. -/
def Json.wfFloatsObj : List (String × Json) → Bool
  | [] => true
  | (_, v) :: ms => Json.wfFloats v && Json.wfFloatsObj ms
end

theorem floatTextOk_noNL {t : String} (h : floatTextOk t = true) : hasNoNewline t = true := by
  simp only [floatTextOk, List.all_eq_true] at h
  simp only [hasNoNewline, List.all_eq_true, bne_iff_ne]
  intro c hc hceq
  subst hceq
  have hn := h '\n' hc
  revert hn
  decide

theorem jnum_display_noNL {n : JNum} (h : n.wf = true) : hasNoNewline n.display = true := by
  cases n with
  | posInt m => exact natStr_noNL m
  | negInt m =>
      rw [JNum.display, hasNoNewline_append]
      exact Bool.and_eq_true_iff.mpr ⟨by decide, natStr_noNL (m + 1)⟩
  | float t num den => exact floatTextOk_noNL h

theorem escapeChar_noNL (c : Char) : (escapeChar c).all (fun x => x != '\n') = true := by
  unfold escapeChar
  split_ifs with h1 h2 h3 h4 h5 h6 h7 h8
  · decide
  · decide
  · decide
  · decide
  · decide
  · decide
  · decide
  · simp only [List.all_cons, List.all_nil, Bool.and_true]
    refine Bool.and_eq_true_iff.mpr ⟨by decide, Bool.and_eq_true_iff.mpr ⟨by decide,
      Bool.and_eq_true_iff.mpr ⟨by decide, Bool.and_eq_true_iff.mpr ⟨by decide,
      Bool.and_eq_true_iff.mpr ⟨hexCh_ne_nl _ (by omega), hexCh_ne_nl _ (by omega)⟩⟩⟩⟩⟩
  · simp only [List.all_cons, List.all_nil, Bool.and_true, bne_iff_ne]
    intro hcontra
    subst hcontra
    revert h8
    decide

theorem escapeStr_noNL (s : String) : hasNoNewline (escapeStr s) = true := by
  simp only [escapeStr, hasNoNewline, List.all_eq_true]
  intro c hc
  rcases List.mem_flatMap.mp hc with ⟨x, _, hcx⟩
  exact (List.all_eq_true.mp (escapeChar_noNL x)) c hcx

theorem serde_noNL : ∀ j : Json, Json.wfFloats j = true →
    hasNoNewline (serde_to_string j) = true := by
  intro j
  induction j using Json.myInduction with
  | h0 => intro _; decide
  | h1 b => intro _; cases b <;> decide
  | h2 n =>
      intro h
      simp only [serde_to_string]
      exact jnum_display_noNL h
  | h3 s =>
      intro _
      simp only [serde_to_string]
      rw [hasNoNewline_append, hasNoNewline_append]
      refine Bool.and_eq_true_iff.mpr ⟨Bool.and_eq_true_iff.mpr ⟨by decide, escapeStr_noNL s⟩, by decide⟩
  | harr es ih =>
      intro h
      simp only [serde_to_string]
      rw [hasNoNewline_append, hasNoNewline_append]
      refine Bool.and_eq_true_iff.mpr ⟨Bool.and_eq_true_iff.mpr ⟨by decide, ?_⟩, by decide⟩
      simp only [Json.wfFloats] at h
      induction es with
      | nil => decide
      | cons e rest ihl =>
          rw [Json.wfFloatsArr] at h
          rcases Bool.and_eq_true_iff.mp h with ⟨he, hrest⟩
          have h1 := ih e (by simp) he
          have h2 := ihl (fun x hx => ih x (by simp [hx])) hrest
          cases rest with
          | nil => simpa [serdeArr] using h1
          | cons e2 rest2 =>
              show hasNoNewline (serde_to_string e ++ "," ++ serdeArr (e2 :: rest2)) = true
              rw [hasNoNewline_append, hasNoNewline_append]
              exact Bool.and_eq_true_iff.mpr ⟨Bool.and_eq_true_iff.mpr ⟨h1, by decide⟩, h2⟩
  | hobj ms ih =>
      intro h
      simp only [serde_to_string]
      rw [hasNoNewline_append, hasNoNewline_append]
      refine Bool.and_eq_true_iff.mpr ⟨Bool.and_eq_true_iff.mpr ⟨by decide, ?_⟩, by decide⟩
      simp only [Json.wfFloats] at h
      induction ms with
      | nil => decide
      | cons kv rest ihl =>
          obtain ⟨k, v⟩ := kv
          rw [Json.wfFloatsObj] at h
          rcases Bool.and_eq_true_iff.mp h with ⟨hv, hrest⟩
          have h1 := ih ⟨k, v⟩ (by simp) hv
          have hentry : hasNoNewline ("\"" ++ escapeStr k ++ "\":" ++ serde_to_string v) = true := by
            rw [hasNoNewline_append, hasNoNewline_append, hasNoNewline_append]
            exact Bool.and_eq_true_iff.mpr ⟨Bool.and_eq_true_iff.mpr
              ⟨Bool.and_eq_true_iff.mpr ⟨by decide, escapeStr_noNL k⟩, by decide⟩, h1⟩
          have h2 := ihl (fun x hx => ih x (by simp [hx])) hrest
          cases rest with
          | nil => simpa [serdeObj] using hentry
          | cons kv2 rest2 =>
              obtain ⟨k2, v2⟩ := kv2
              show hasNoNewline ("\"" ++ escapeStr k ++ "\":" ++ serde_to_string v ++ "," ++
                serdeObj ((k2, v2) :: rest2)) = true
              rw [hasNoNewline_append, hasNoNewline_append]
              exact Bool.and_eq_true_iff.mpr ⟨Bool.and_eq_true_iff.mpr ⟨hentry, by decide⟩, h2⟩

/-! ## Case-insensitivity of the classifier and redactor -/

theorem format_plain_field_lower_eq (k k' : String) (v : Json)
    (h : to_ascii_lowercase k = to_ascii_lowercase k') :
    format_plain_field k v = format_plain_field k' v := by
  simp only [format_plain_field]
  rw [h]

theorem isSecretKey_lower_eq (k k' : String) (h : to_ascii_lowercase k = to_ascii_lowercase k') :
    isSecretKey k = isSecretKey k' := by
  simp only [isSecretKey]
  rw [h]

/-! ## Claims -/

/-- Claim C1, counterexample: the compact rendering `OutputFormat::format` with the
JSON format does not replace the scalar value of a `_secret`-suffixed field by
`***`; the object `beginbrace "k_secret": "x" endbrace` serializes verbatim, not
in the redacted form the claim requires. -/
theorem C1_counterexample :
    OutputFormat.format OutputFormat.json (Json.obj [("k_secret", Json.strJ "x")]) =
      "\x7b\"k_secret\":\"x\"\x7d" ∧
    ("\x7b\"k_secret\":\"x\"\x7d" : String) ≠ "\x7b\"k_secret\":\"***\"\x7d" :=
  ⟨rfl, by decide⟩

/-- Claim C1, amended: for every input tree, the compact rendering produced by
`OutputFormat::format` is exactly `serde_json::to_string` of the value — a single
line with no newline character (for every tree whose float display texts draw
from the serializer's character set) in which every key and value appears exactly
as in the input, with no redaction, no key stripping and no value reformatting;
`_secret` fields are only replaced if the caller runs `redact_secrets` first. -/
theorem C1_amended_compact_verbatim :
    (∀ v : Json, OutputFormat.format OutputFormat.json v = serde_to_string v) ∧
    (∀ v : Json, Json.wfFloats v = true →
      hasNoNewline (OutputFormat.format OutputFormat.json v) = true) :=
  ⟨fun _ => rfl, fun v h => serde_noNL v h⟩

/-- Claim C1, witness: the amended theorem evaluated at a concrete tree. -/
theorem C1_witness :
    Json.wfFloats (Json.obj [("k_secret", Json.strJ "x"), ("n", Json.numJ (JNum.posInt 7))]) = true ∧
    hasNoNewline (OutputFormat.format OutputFormat.json
      (Json.obj [("k_secret", Json.strJ "x"), ("n", Json.numJ (JNum.posInt 7))])) = true :=
  ⟨rfl, C1_amended_compact_verbatim.2
    (Json.obj [("k_secret", Json.strJ "x"), ("n", Json.numJ (JNum.posInt 7))]) rfl⟩

/-- Claim C2: the render pipeline is not total on `_epoch_s` fields.  The source
computes `s * 1000` on `i64` without an overflow check; at `i64::MAX` the exact
product leaves the `i64` range (a panic under debug assertions), and the
release-build wrap-around lands on `-1000`, so the rendered text is the
pre-1970 instant `1969-12-31T23:59:59.000Z` instead of a fallback. -/
theorem C2_epoch_s_overflow :
    ¬ fitsI64 ((9223372036854775807 : Int) * 1000) ∧
    wrapI64 ((9223372036854775807 : Int) * 1000) = -1000 ∧
    format_plain_field "t_epoch_s" (Json.numJ (JNum.posInt 9223372036854775807)) =
      "1969-12-31T23:59:59.000Z" :=
  ⟨by decide, by decide, rfl⟩

/-- Claim C3, counterexample: `to_yaml` applies no suffix rule — the field
`"timeout_s": 30` renders under its original key with the bare number `30`, not
as the stripped, quoted `timeout: "30s"` the claim requires. -/
theorem C3_counterexample :
    to_yaml (Json.obj [("timeout_s", Json.numJ (JNum.posInt 30))]) = "---\ntimeout_s: 30" ∧
    ("---\ntimeout_s: 30" : String) ≠ "---\ntimeout: \"30s\"" := by
  constructor
  · simp only [to_yaml, render_yaml, renderYamlFields, renderYamlField, jcs_sorted,
      sortFieldsBy, insertFieldBy, yaml_scalar, List.foldr]
    rfl
  · decide

/-- Claim C3, amended: `to_yaml` never strips keys and never applies suffix
formatting; every object whose field values are scalars renders as one
`key: <yaml scalar>` line per field in `jcs_sorted` order, with the raw value
(strings quoted, numbers/booleans/null bare) under the original key. -/
theorem C3_amended_yaml_raw (ms : List (String × Json))
    (h : ms.all (fun kv => !kv.2.is_object && !kv.2.is_array) = true) :
    to_yaml (Json.obj ms) =
      String.intercalate "\n"
        ("---" :: (jcs_sorted ms).map (fun kv => kv.1 ++ ": " ++ yaml_scalar kv.2)) := by
  rw [to_yaml]
  have hall : (jcs_sorted ms).all (fun kv => !kv.2.is_object && !kv.2.is_array) = true :=
    all_of_perm (jcs_sorted_perm ms).symm h
  have hrw : render_yaml (Json.obj ms) 0 = renderYamlFields (jcs_sorted ms) 0 := by
    simp [render_yaml]
  rw [hrw, renderYamlFields_scalars _ _ hall]
  simp [indentPad_zero, empty_str_append]

/-- Claim C3, witness: the amended theorem evaluated at a concrete scalar object. -/
theorem C3_witness :
    ([("timeout_s", Json.numJ (JNum.posInt 30)), ("name", Json.strJ "a")].all
      (fun kv => !kv.2.is_object && !kv.2.is_array) = true) ∧
    to_yaml (Json.obj [("timeout_s", Json.numJ (JNum.posInt 30)), ("name", Json.strJ "a")]) =
      String.intercalate "\n"
        ("---" :: (jcs_sorted [("timeout_s", Json.numJ (JNum.posInt 30)), ("name", Json.strJ "a")]).map
          (fun kv => kv.1 ++ ": " ++ yaml_scalar kv.2)) :=
  ⟨rfl, C3_amended_yaml_raw _ rfl⟩

/-- Claim C4, counterexample: a `_ms` value of 1000 renders with Rust's fixed
two-decimal `beginbrace:.2endbrace` format as `1.00s`, not the trailing-zero-trimmed
`1.0s` the claim requires. -/
theorem C4_counterexample :
    format_plain_field "latency_ms" (Json.numJ (JNum.posInt 1000)) = "1.00s" ∧
    ("1.00s" : String) ≠ "1.0s" :=
  ⟨rfl, by decide⟩

/-- Claim C4, amended: for a `_ms` key, an unsigned integer at or above 1000 is
converted to f64, divided by `1000.0` in binary64, and printed with exactly two
fixed decimals of the resulting double's value — trailing zeros kept, never
three decimals, and the printed digits are those of the binary quotient
(`1000 → 1.00s`, `1001 → 1.00s`, `1005 → 1.00s` and `1015 → 1.01s` because
their binary quotients fall below the decimal midpoint, `1280 → 1.28s`,
`1500 → 1.50s`, `5000 → 5.00s`); below 1000 it renders as `<n>ms`.  A negative
integer is always `<n>ms` (the threshold compares the signed value, not its
absolute value); a float keeps its literal text below 1000 (`0.5ms`). -/
theorem C4_amended_ms_format :
    (∀ n : Nat, format_plain_field "latency_ms" (Json.numJ (JNum.posInt n)) =
      (if 1000 ≤ n then msSecondsText (f64OfNat n).1 (f64OfNat n).2
       else natStr n ++ "ms")) ∧
    (∀ m : Nat, format_plain_field "latency_ms" (Json.numJ (JNum.negInt m)) =
      "-" ++ natStr (m + 1) ++ "ms") ∧
    format_plain_field "latency_ms" (Json.numJ (JNum.float "0.5" 1 2)) = "0.5ms" ∧
    format_plain_field "latency_ms" (Json.numJ (JNum.posInt 999)) = "999ms" ∧
    format_plain_field "latency_ms" (Json.numJ (JNum.posInt 1001)) = "1.00s" ∧
    format_plain_field "latency_ms" (Json.numJ (JNum.posInt 1005)) = "1.00s" ∧
    format_plain_field "latency_ms" (Json.numJ (JNum.posInt 1015)) = "1.01s" ∧
    format_plain_field "latency_ms" (Json.numJ (JNum.posInt 1280)) = "1.28s" ∧
    format_plain_field "latency_ms" (Json.numJ (JNum.posInt 1500)) = "1.50s" ∧
    format_plain_field "latency_ms" (Json.numJ (JNum.posInt 5000)) = "5.00s" ∧
    format_plain_field "latency_ms" (Json.numJ (JNum.posInt 0)) = "0ms" :=
  ⟨fun _ => rfl, fun _ => rfl, rfl, rfl, rfl, rfl, rfl, rfl, rfl, rfl, rfl⟩

/-- Claim C5, counterexample: on the colliding object
`beginbrace"response_ms":150,"response_s":1endbrace` the plain renderer emits
`response_ms: 150ms` and `response_s: 1s` on two lines — original keys but
suffix-formatted values in `key: value` lines — not the claimed flattened
`response_ms=150 response_s=1` with unformatted raw values. -/
theorem C5_counterexample :
    to_plain (Json.obj [("response_ms", Json.numJ (JNum.posInt 150)),
      ("response_s", Json.numJ (JNum.posInt 1))]) = "response_ms: 150ms\nresponse_s: 1s" ∧
    ("response_ms: 150ms\nresponse_s: 1s" : String) ≠ "response_ms=150 response_s=1" := by
  constructor
  · have hsort : jcs_sorted [("response_ms", Json.numJ (JNum.posInt 150)),
        ("response_s", Json.numJ (JNum.posInt 1))] =
        [("response_ms", Json.numJ (JNum.posInt 150)),
         ("response_s", Json.numJ (JNum.posInt 1))] := rfl
    simp only [to_plain, render_plain, hsort, renderPlainFields, renderPlainField]
    rfl
  · decide

/-- Claim C5, amended: there is no display-key collision handling because keys are
never stripped at all — both renderers always emit every field under its original
key.  The plain renderer still suffix-formats each scalar value independently
(`response_ms: 150ms`, `response_s: 1s`, each on its own `key: value` line), and
the YAML renderer shows the raw values; in general every all-scalar object
renders in plain as one `key: format_plain_field` line per field in sorted
order. -/
theorem C5_amended_no_collision_pass :
    (to_plain (Json.obj [("response_ms", Json.numJ (JNum.posInt 150)),
      ("response_s", Json.numJ (JNum.posInt 1))]) = "response_ms: 150ms\nresponse_s: 1s") ∧
    (to_yaml (Json.obj [("response_ms", Json.numJ (JNum.posInt 150)),
      ("response_s", Json.numJ (JNum.posInt 1))]) = "---\nresponse_ms: 150\nresponse_s: 1") ∧
    (∀ ms : List (String × Json), ms.all (fun kv => !kv.2.is_object && !kv.2.is_array) = true →
      to_plain (Json.obj ms) =
        String.intercalate "\n"
          ((jcs_sorted ms).map (fun kv => kv.1 ++ ": " ++ format_plain_field kv.1 kv.2))) := by
  have hsort : jcs_sorted [("response_ms", Json.numJ (JNum.posInt 150)),
      ("response_s", Json.numJ (JNum.posInt 1))] =
      [("response_ms", Json.numJ (JNum.posInt 150)),
       ("response_s", Json.numJ (JNum.posInt 1))] := rfl
  refine ⟨?_, ?_, ?_⟩
  · simp only [to_plain, render_plain, hsort, renderPlainFields, renderPlainField]
    rfl
  · simp only [to_yaml, render_yaml, hsort, renderYamlFields, renderYamlField]
    rfl
  · intro ms h
    rw [to_plain]
    have hall : (jcs_sorted ms).all (fun kv => !kv.2.is_object && !kv.2.is_array) = true :=
      all_of_perm (jcs_sorted_perm ms).symm h
    have hrw : render_plain (Json.obj ms) 0 = renderPlainFields (jcs_sorted ms) 0 := by
      simp [render_plain]
    rw [hrw, renderPlainFields_scalars _ _ hall]
    simp [indentPad_zero, empty_str_append]

/-- Claim C5, witness: the amended theorem's general part evaluated at a concrete
scalar object. -/
theorem C5_witness :
    ([("b_ms", Json.numJ (JNum.posInt 2)), ("a", Json.strJ "x")].all
      (fun kv => !kv.2.is_object && !kv.2.is_array) = true) ∧
    to_plain (Json.obj [("b_ms", Json.numJ (JNum.posInt 2)), ("a", Json.strJ "x")]) =
      String.intercalate "\n"
        ((jcs_sorted [("b_ms", Json.numJ (JNum.posInt 2)), ("a", Json.strJ "x")]).map
          (fun kv => kv.1 ++ ": " ++ format_plain_field kv.1 kv.2)) :=
  ⟨rfl, C5_amended_no_collision_pass.2.2 _ rfl⟩

/-- Claim C6, counterexample: `redact_secrets` does not replace non-string scalars
(the number under `count_secret` survives), and it does redact mixed-case
variants (`k_Secret`'s string is replaced), contradicting both the
scalar-replacement clause and the exact-casing clause of the claim. -/
theorem C6_counterexample :
    redact_secrets (Json.obj [("count_secret", Json.numJ (JNum.posInt 42))]) =
      Json.obj [("count_secret", Json.numJ (JNum.posInt 42))] ∧
    Json.obj [("count_secret", Json.numJ (JNum.posInt 42))] ≠
      Json.obj [("count_secret", Json.strJ "***")] ∧
    redact_secrets (Json.obj [("k_Secret", Json.strJ "x")]) =
      Json.obj [("k_Secret", Json.strJ "***")] := by
  refine ⟨rfl, ?_, rfl⟩
  intro h
  simp only [Json.obj.injEq, List.cons.injEq, Prod.mk.injEq, and_true, true_and] at h
  exact Json.noConfusion h

/-- Claim C6, amended: `redact_secrets` replaces an object entry's value by `***`
if and only if the ASCII-lowercased key ends in `_secret` (any casing of the
suffix, not just all-lower or all-upper) and the value is a string; numbers,
booleans and nulls under secret keys are left in place, every other value is
recursed into, and arrays are traversed elementwise. -/
theorem C6_amended_redact_characterization :
    (∀ ms, redact_secrets (Json.obj ms) = Json.obj (ms.map (fun kv =>
      (kv.1, if isSecretKey kv.1 ∧ kv.2.is_string then Json.strJ "***"
             else redact_secrets kv.2)))) ∧
    (∀ es, redact_secrets (Json.arr es) = Json.arr (es.map redact_secrets)) ∧
    isSecretKey "k_secret" = true ∧ isSecretKey "K_SECRET" = true ∧
    isSecretKey "k_Secret" = true ∧ isSecretKey "k_sEcReT" = true :=
  ⟨fun ms => by simp only [redact_secrets, redactObj_eq_map],
   fun es => by simp only [redact_secrets, redactArr_eq_map],
   rfl, rfl, rfl, rfl⟩

/-- Claim C7, counterexample: mixed-case suffixes are recognized — `latency_Ms`
is formatted as a duration (`42ms`, not the raw `42`), and `api_key_Secret` is
redacted — because both the classifier and the redactor ASCII-lowercase the key
before the suffix test. -/
theorem C7_counterexample :
    format_plain_field "latency_Ms" (Json.numJ (JNum.posInt 42)) = "42ms" ∧
    ("42ms" : String) ≠ "42" ∧
    redact_secrets (Json.obj [("api_key_Secret", Json.strJ "real")]) =
      Json.obj [("api_key_Secret", Json.strJ "***")] ∧
    Json.obj [("api_key_Secret", Json.strJ "***")] ≠
      Json.obj [("api_key_Secret", Json.strJ "real")] := by
  refine ⟨rfl, by decide, rfl, ?_⟩
  intro h
  simp only [Json.obj.injEq, List.cons.injEq, Prod.mk.injEq, Json.strJ.injEq, true_and,
    and_true] at h
  exact absurd h (by decide)

/-- Claim C7, amended: suffix recognition is case-insensitive via ASCII
lowercasing — the plain classifier's output and the redactor's key test depend
on the key only through `to_ascii_lowercase`, so every casing variant of a
recognized suffix (mixed case included) is treated identically. -/
theorem C7_amended_case_insensitive :
    (∀ k k' : String, ∀ v : Json, to_ascii_lowercase k = to_ascii_lowercase k' →
      format_plain_field k v = format_plain_field k' v) ∧
    (∀ k k' : String, to_ascii_lowercase k = to_ascii_lowercase k' →
      isSecretKey k = isSecretKey k') :=
  ⟨fun k k' v h => format_plain_field_lower_eq k k' v h,
   fun k k' h => isSecretKey_lower_eq k k' h⟩

/-- Claim C7, witness: the amended theorem evaluated at the mixed-case pair. -/
theorem C7_witness :
    to_ascii_lowercase "latency_Ms" = to_ascii_lowercase "latency_ms" ∧
    format_plain_field "latency_Ms" (Json.numJ (JNum.posInt 42)) =
      format_plain_field "latency_ms" (Json.numJ (JNum.posInt 42)) :=
  ⟨rfl, C7_amended_case_insensitive.1 "latency_Ms" "latency_ms" (Json.numJ (JNum.posInt 42)) rfl⟩

/-- Claim C8: both renderers sort every object's fields with `jcs_sorted`, which
emits them in ascending UTF-16 code-unit order of the keys while preserving the
field multiset, independently per object; and because the map type backing
`serde_json` objects normalizes insertion order (modelled by `canonValue`), two
input trees equal as key-to-value maps produce byte-identical YAML and plain
output. -/
theorem C8_sorted_deterministic :
    (∀ ms : List (String × Json),
      FieldSortedBy keyLe (jcs_sorted ms) ∧ (jcs_sorted ms).Perm ms) ∧
    (∀ v w : Json, MapEquiv v w →
      OutputFormat.format OutputFormat.yaml (canonValue v) =
        OutputFormat.format OutputFormat.yaml (canonValue w) ∧
      OutputFormat.format OutputFormat.plain (canonValue v) =
        OutputFormat.format OutputFormat.plain (canonValue w)) :=
  ⟨fun ms => ⟨jcs_sorted_sorted ms, jcs_sorted_perm ms⟩,
   fun v w h => by rw [mapEquiv_canon h]; exact ⟨rfl, rfl⟩⟩

/-- Claim C8, witness: the determinism part applied to two concrete objects that
are equal as maps but differently ordered. -/
theorem C8_witness :
    MapEquiv (Json.obj [("b", Json.numJ (JNum.posInt 2)), ("a", Json.numJ (JNum.posInt 1))])
      (Json.obj [("a", Json.numJ (JNum.posInt 1)), ("b", Json.numJ (JNum.posInt 2))]) ∧
    OutputFormat.format OutputFormat.yaml
      (canonValue (Json.obj [("b", Json.numJ (JNum.posInt 2)), ("a", Json.numJ (JNum.posInt 1))])) =
    OutputFormat.format OutputFormat.yaml
      (canonValue (Json.obj [("a", Json.numJ (JNum.posInt 1)), ("b", Json.numJ (JNum.posInt 2))])) := by
  have hme : MapEquiv (Json.obj [("b", Json.numJ (JNum.posInt 2)), ("a", Json.numJ (JNum.posInt 1))])
      (Json.obj [("a", Json.numJ (JNum.posInt 1)), ("b", Json.numJ (JNum.posInt 2))]) := by
    refine MapEquiv.objE ?_ (ObjEquiv.cons (MapEquiv.numE _)
      (ObjEquiv.cons (MapEquiv.numE _) ObjEquiv.nil)) ?_
    · show ((["b", "a"] : List String)).Nodup
      decide
    · exact List.Perm.swap ("a", Json.numJ (JNum.posInt 1)) ("b", Json.numJ (JNum.posInt 2)) []
  exact ⟨hme, (C8_sorted_deterministic.2 _ _ hme).1⟩

/-- Claim C9: redaction is idempotent — `redact_secrets` applied to an already
redacted tree returns it unchanged, so the compact rendering of a doubly
redacted tree equals that of the singly redacted one. -/
theorem C9_redact_idempotent :
    (∀ t : Json, redact_secrets (redact_secrets t) = redact_secrets t) ∧
    (∀ t : Json, OutputFormat.format OutputFormat.json (redact_secrets (redact_secrets t)) =
      OutputFormat.format OutputFormat.json (redact_secrets t)) :=
  ⟨redact_idem, fun t => by rw [redact_idem]⟩

/-- Claim C10: `redact_secrets` preserves the tree's shape exactly — object key
lists (order included) and array lengths are unchanged, null, booleans, numbers
and top-level strings pass through untouched, and the only change anywhere is
that a string value held directly under an object key whose ASCII-lowercased
form ends in `_secret` becomes `***` (all other entries are merely recursed
into). -/
theorem C10_redact_frame :
    (redact_secrets Json.null = Json.null) ∧
    (∀ b, redact_secrets (Json.boolJ b) = Json.boolJ b) ∧
    (∀ n, redact_secrets (Json.numJ n) = Json.numJ n) ∧
    (∀ s, redact_secrets (Json.strJ s) = Json.strJ s) ∧
    (∀ es, redact_secrets (Json.arr es) = Json.arr (es.map redact_secrets) ∧
      (redactArr es).length = es.length) ∧
    (∀ ms, redact_secrets (Json.obj ms) = Json.obj (ms.map (fun kv =>
        (kv.1, if isSecretKey kv.1 ∧ kv.2.is_string then Json.strJ "***"
               else redact_secrets kv.2))) ∧
      (redactObj ms).map Prod.fst = ms.map Prod.fst) :=
  ⟨rfl, fun _ => rfl, fun _ => rfl, fun _ => rfl,
   fun es => ⟨by simp only [redact_secrets, redactArr_eq_map], redactArr_length es⟩,
   fun ms => ⟨by simp only [redact_secrets, redactObj_eq_map], redact_keys ms⟩⟩
